import Mathlib

/-!
A verification development for the `comphardware` repository: a shallow
embedding in Lean 4 of its unit-normalization, fuzzy model-matching and
database round-trip code, together with theorems settling the specification
claims about that code.

Modelling conventions:
* Python strings are Lean `String`s (sequences of unicode scalar values);
  where character-level work is needed we pass to `String.data : List Char`.
* Python `str.casefold` is modelled by the ASCII case mapping
  `lowerString`; for the ASCII unit vocabulary and model names handled by
  the code the two coincide.
* Python machine integers are unbounded, so `Int`/`Nat` model them exactly.
  Python floats appearing in the score formulas are modelled as rationals
  (`ℚ`); the claims under verification only concern the algebraic formulas.
* Python dicts preserve insertion order, so a database is modelled as an
  association list `List (String × α)` whose keys are pairwise distinct
  (`Nodup` hypotheses state the dict key-uniqueness invariant).
* Fallible code returns `Option`; an uncaught exception path is modelled by
  `none` at the outermost level where relevant.
-/

namespace Comphardware

/-! ### Python string primitives

The Python string operations used by the code (`str.casefold`, `str.split`,
`str.isdigit`, `int(...)` on digit strings, `dict[key]`) are modelled by
structurally recursive functions over `String.data`, so every definition in
this file evaluates by kernel reduction on concrete inputs. -/

/-- Python `str.casefold`, restricted to the ASCII case mapping that is all
this code relies on (the unit vocabulary and hardware model names are
ASCII). -/
def lowerString (s : String) : String :=
  ⟨s.data.map Char.toLower⟩

/-- Split a character list at every occurrence of characters satisfying `p`,
keeping empty pieces — the semantics of Python `str.split(sep)` for a
one-character separator when `p` matches exactly `sep`. -/
def splitChars (p : Char → Bool) : List Char → List (List Char)
  | [] => [[]]
  | c :: rest =>
    match splitChars p rest with
    | [] => [[]]
    | t :: ts => if p c then [] :: t :: ts else (c :: t) :: ts

/-- Python `s.split(" ")`: split at each single space, keeping empty
tokens. -/
def pySplitSpace (s : String) : List String :=
  (splitChars (fun c => c = ' ') s.data).map (fun l => ⟨l⟩)

/-- Python `s.split()` (no separator): split on whitespace runs, discarding
empty tokens. -/
def pySplitWhitespace (s : String) : List String :=
  ((splitChars Char.isWhitespace s.data).filter (fun l => !l.isEmpty)).map
    (fun l => ⟨l⟩)

/-- Python `int(...)` on a string of ASCII digits. -/
def digitsToNat (l : List Char) : ℕ :=
  l.foldl (fun n c => n * 10 + (c.toNat - '0'.toNat)) 0

/-- Python `dict[key]` on the association-list model of a dict (and also
`dict.get(key, None)` as an `Option`). -/
def dictGet {α : Type} (k : String) : List (String × α) → Option α
  | [] => none
  | (k', v) :: rest => if k = k' then some v else dictGet k rest

/-! ### Unit normalizer

From `src/comphardware/helpers.py`, `human_readable_to_bytes` (lines 54-77)
and `human_readable_to_hertz` (lines 80-96).  The file
`src/database-scripts/helpers.py` (lines 171-213) contains textually
identical copies of both functions, so a single model covers both.  The
functions are duck-typed in Python (they are also applied to floats by
`convert-divinity76s-database.py`), hence the semiring-polymorphic `value`.
-/

/-- Source function `human_readable_to_bytes`: casefold the unit, then an
if/elif chain over the fixed unit vocabulary, with unrecognized units passing
the value through unchanged. -/
def human_readable_to_bytes {α : Type} [Semiring α] (value : α) (unit : String) : α :=
  let u := lowerString unit
  if u = "b" then value
  else if u = "kb" ∨ u = "kib" then value * 1024
  else if u = "mb" ∨ u = "mib" then value * 1024 ^ 2
  else if u = "gb" ∨ u = "gib" then value * 1024 ^ 3
  else if u = "tb" ∨ u = "tib" then value * 1024 ^ 4
  else value

/-- Source function `human_readable_to_hertz`: casefold the unit, then an
if/elif chain over khz/mhz/ghz/thz, with unrecognized units passing the value
through unchanged. -/
def human_readable_to_hertz {α : Type} [Semiring α] (value : α) (unit : String) : α :=
  let u := lowerString unit
  if u = "khz" then value * 10 ^ 3
  else if u = "mhz" then value * 10 ^ 6
  else if u = "ghz" then value * 10 ^ 9
  else if u = "thz" then value * 10 ^ 12
  else value

/-- The multiplier applied by `human_readable_to_bytes`, for factoring
claims about it. -/
def bytesMultiplier (unit : String) : ℤ :=
  human_readable_to_bytes 1 unit

/-- The multiplier applied by `human_readable_to_hertz`. -/
def hertzMultiplier (unit : String) : ℤ :=
  human_readable_to_hertz 1 unit

lemma human_readable_to_bytes_eq_mul (value : ℤ) (unit : String) :
    human_readable_to_bytes value unit = value * bytesMultiplier unit := by
  simp only [bytesMultiplier, human_readable_to_bytes]
  repeat' split
  all_goals norm_num

lemma human_readable_to_hertz_eq_mul (value : ℤ) (unit : String) :
    human_readable_to_hertz value unit = value * hertzMultiplier unit := by
  simp only [hertzMultiplier, human_readable_to_hertz]
  repeat' split
  all_goals norm_num

lemma bytesMultiplier_pos (unit : String) : 0 < bytesMultiplier unit := by
  simp only [bytesMultiplier, human_readable_to_bytes]
  repeat' split
  all_goals norm_num

lemma hertzMultiplier_pos (unit : String) : 0 < hertzMultiplier unit := by
  simp only [hertzMultiplier, human_readable_to_hertz]
  repeat' split
  all_goals norm_num

/-! ### RAM extraction from a cluttered string

From `src/comphardware/helpers.py`, the RAM-parsing part of
`setup_from_clutter` (lines 405-428).  The Python code casefolds the whole
string, splits it *on the single space character* (`.split(" ")`, which keeps
empty tokens between consecutive spaces), scans for the first token `part`
with `part.isdigit()`, takes as unit the very next token (or `"b"` when the
numeric token is last), and converts with `human_readable_to_bytes`.  When no
numeric token is found, `value` stays `None` and the conversion raises
`AttributeError` inside the enclosing `try`, which the bare `except` turns
into `ram = None`; the model returns `none` directly on that path.
`part.isdigit()` is modelled as "nonempty and all characters are ASCII
digits", which matches Python on the ASCII strings this code handles. -/

/-- Python `part.isdigit()` for ASCII strings. -/
def isDigitToken (s : String) : Bool :=
  !s.data.isEmpty && s.data.all Char.isDigit

/-- The unit chosen by `setup_from_clutter` once the numeric token is
found: the next token, or `"b"` when the numeric token was the last one
(`i == len(ram_clutter) - 1` in the source). -/
def headOrB : List String → String
  | [] => "b"
  | u :: _ => u

/-- The scan loop of `setup_from_clutter`: first token that `isdigit`,
paired with the following token, or `"b"` when the numeric token is last. -/
def ramScan : List String → Option (ℕ × String)
  | [] => none
  | p :: rest =>
    if isDigitToken p then
      some (digitsToNat p.data, headOrB rest)
    else
      ramScan rest

/-- The RAM-extraction step of `setup_from_clutter`: casefold, split on the
space character, scan, convert to bytes; `none` models the swallowed
exception when no numeric token exists. -/
def ram_from_clutter (ram_clutter : String) : Option ℤ :=
  match ramScan (pySplitSpace (lowerString ram_clutter)) with
  | none => none
  | some (value, unit) => some (human_readable_to_bytes (value : ℤ) unit)

/-- Python `int(...)` applied to an arbitrary token: an optional single
sign followed by digits (the "parses as an integer" of the spec). -/
def pyParseInt (s : String) : Option ℤ :=
  match s.data with
  | '-' :: rest => if !rest.isEmpty && rest.all Char.isDigit
      then some (-(digitsToNat rest : ℤ)) else none
  | '+' :: rest => if !rest.isEmpty && rest.all Char.isDigit
      then some (digitsToNat rest : ℤ) else none
  | l => if !l.isEmpty && l.all Char.isDigit then some (digitsToNat l : ℤ) else none

/-- The scan of `ramSpecWhitespace`: first token parsing as an integer,
paired with the following token or `"b"`. -/
def ramSpecScan : List String → Option (ℤ × String)
  | [] => none
  | p :: rest =>
    match pyParseInt p with
    | some v => some (v, match rest with | [] => "b" | u :: _ => u)
    | none => ramSpecScan rest

/-- Modelled from the spec (section 4.3), for comparison with the source:
"split on whitespace, scan tokens left to right for the first token that
parses as an integer; the unit is the token immediately following it, or
"b" if the numeric token is the last token in the string". -/
def ramSpecWhitespace (ram_clutter : String) : Option ℤ :=
  match ramSpecScan (pySplitWhitespace ram_clutter) with
  | none => none
  | some (value, unit) => some (human_readable_to_bytes value unit)

/-! ### Longest common substring

The specification describes the matcher in terms of the classic longest
contiguous common substring.  `lcsLen a b` is that notion, defined
executably: the maximum length over all contiguous substrings of `a` that
also occur contiguously in `b`. -/

/-- All contiguous substrings of `a` (with duplicates, including `[]`). -/
def substringsOf (a : List Char) : List (List Char) :=
  a.tails.flatMap List.inits

/-- Length of the longest contiguous common substring of `a` and `b`. -/
def lcsLen (a b : List Char) : ℕ :=
  ((substringsOf a).filter (fun s => decide (s <:+: b))).foldr
    (fun s m => max s.length m) 0

/-- A matching block: the `k` characters of `a` starting at `i` equal the
`k` characters of `b` starting at `j` (all positions in range). -/
def IsBlock (a b : List Char) (i j k : ℕ) : Prop :=
  ∀ t < k, ∃ c, a[i + t]? = some c ∧ b[j + t]? = some c

lemma le_foldrMax {l : List (List Char)} {s : List Char} (h : s ∈ l) :
    s.length ≤ l.foldr (fun s m => max s.length m) 0 := by
  induction l with
  | nil => cases h
  | cons t ts ih =>
    rcases List.mem_cons.1 h with rfl | hmem
    · exact le_max_left _ _
    · exact le_trans (ih hmem) (le_max_right _ _)

lemma foldrMax_cases (l : List (List Char)) :
    l.foldr (fun s m => max s.length m) 0 = 0 ∨
      ∃ s ∈ l, l.foldr (fun s m => max s.length m) 0 = s.length := by
  induction l with
  | nil => exact Or.inl rfl
  | cons t ts ih =>
    rcases le_or_lt t.length (ts.foldr (fun s m => max s.length m) 0) with hle | hlt
    · rcases ih with h0 | ⟨s, hs, heq⟩
      · left
        simp only [List.foldr_cons, h0] at *
        omega
      · right
        exact ⟨s, List.mem_cons_of_mem _ hs, by simp only [List.foldr_cons]; omega⟩
    · right
      exact ⟨t, List.mem_cons_self _ _, by simp only [List.foldr_cons]; omega⟩

lemma mem_substringsOf {s a : List Char} : s ∈ substringsOf a ↔ s <:+: a := by
  simp only [substringsOf, List.mem_flatMap, List.mem_tails, List.mem_inits]
  constructor
  · rintro ⟨t, ⟨u, rfl⟩, r, rfl⟩
    exact ⟨u, r, by simp⟩
  · rintro ⟨u, v, rfl⟩
    exact ⟨s ++ v, ⟨u, by simp⟩, v, rfl⟩

lemma lcsLen_ge {s a b : List Char} (h1 : s <:+: a) (h2 : s <:+: b) :
    s.length ≤ lcsLen a b :=
  le_foldrMax (List.mem_filter.2 ⟨mem_substringsOf.2 h1, decide_eq_true h2⟩)

lemma lcsLen_spec (a b : List Char) :
    ∃ s, s <:+: a ∧ s <:+: b ∧ s.length = lcsLen a b := by
  rcases foldrMax_cases ((substringsOf a).filter (fun s => decide (s <:+: b))) with h0 | hs
  · exact ⟨[], ⟨[], a, rfl⟩, ⟨[], b, rfl⟩, by simp [lcsLen, h0]⟩
  · obtain ⟨s, hmem, heq⟩ := hs
    obtain ⟨hsub, hinf⟩ := List.mem_filter.1 hmem
    exact ⟨s, mem_substringsOf.1 hsub, of_decide_eq_true hinf, heq.symm⟩

lemma IsBlock.mono {a b : List Char} {i j k k' : ℕ} (h : IsBlock a b i j k)
    (hk : k' ≤ k) : IsBlock a b i j k' :=
  fun t ht => h t (lt_of_lt_of_le ht hk)

lemma IsBlock.bound_a {a b : List Char} {i j k : ℕ} (h : IsBlock a b i j k)
    (hk : 0 < k) : i + k ≤ a.length := by
  obtain ⟨c, hc, -⟩ := h (k - 1) (by omega)
  obtain ⟨hlt, -⟩ := List.getElem?_eq_some.1 hc
  omega

lemma IsBlock.bound_b {a b : List Char} {i j k : ℕ} (h : IsBlock a b i j k)
    (hk : 0 < k) : j + k ≤ b.length := by
  obtain ⟨c, -, hc⟩ := h (k - 1) (by omega)
  obtain ⟨hlt, -⟩ := List.getElem?_eq_some.1 hc
  omega

lemma take_drop_infix (a : List Char) (i k : ℕ) :
    (a.drop i).take k <:+: a := by
  refine ⟨a.take i, (a.drop i).drop k, ?_⟩
  rw [List.append_assoc, List.take_append_drop, List.take_append_drop]

/-- The two sides of a matching block are the same word. -/
lemma IsBlock.take_drop_eq {a b : List Char} {i j k : ℕ} (h : IsBlock a b i j k) :
    (a.drop i).take k = (b.drop j).take k := by
  apply List.ext_getElem?
  intro n
  rcases lt_or_le n k with hn | hn
  · rw [List.getElem?_take_of_lt hn, List.getElem?_take_of_lt hn,
      List.getElem?_drop, List.getElem?_drop]
    obtain ⟨c, hc1, hc2⟩ := h n hn
    rw [hc1, hc2]
  · rw [List.getElem?_eq_none, List.getElem?_eq_none]
    · exact le_trans (List.length_take_le _ _) hn
    · exact le_trans (List.length_take_le _ _) hn

lemma IsBlock.le_lcsLen {a b : List Char} {i j k : ℕ} (h : IsBlock a b i j k) :
    k ≤ lcsLen a b := by
  rcases Nat.eq_zero_or_pos k with rfl | hk
  · exact Nat.zero_le _
  have ha := h.bound_a hk
  have hb := h.bound_b hk
  have hlen : ((a.drop i).take k).length = k := by
    rw [List.length_take, List.length_drop]
    omega
  have h1 : (a.drop i).take k <:+: a := take_drop_infix a i k
  have h2 : (a.drop i).take k <:+: b := by
    rw [h.take_drop_eq]
    exact take_drop_infix b j k
  calc k = ((a.drop i).take k).length := hlen.symm
    _ ≤ lcsLen a b := lcsLen_ge h1 h2

lemma isBlock_of_infix {s a b : List Char} (h1 : s <:+: a) (h2 : s <:+: b) :
    ∃ i j, IsBlock a b i j s.length := by
  obtain ⟨u, v, rfl⟩ := h1
  obtain ⟨u', v', hb⟩ := h2
  refine ⟨u.length, u'.length, fun t ht => ?_⟩
  have hget : ∀ (w x : List Char), (w ++ s ++ x)[w.length + t]? = some s[t] := by
    intro w x
    rw [List.append_assoc, List.getElem?_append_right (Nat.le_add_right _ _),
      Nat.add_sub_cancel_left, List.getElem?_append_left ht,
      List.getElem?_eq_getElem ht]
  exact ⟨s[t], hget u v, hb ▸ hget u' v'⟩

/-- Some block realizes the longest-common-substring length. -/
lemma lcs_isBlock (a b : List Char) : ∃ i j, IsBlock a b i j (lcsLen a b) := by
  obtain ⟨s, h1, h2, hlen⟩ := lcsLen_spec a b
  exact hlen ▸ isBlock_of_infix h1 h2

/-! ### The matcher core: `difflib.SequenceMatcher.find_longest_match`

`_find_by_model` (src/comphardware/helpers.py lines 99-144) delegates the
per-key work to `difflib.SequenceMatcher(b=unexact_model)` with
`set_seq1(model)` followed by `find_longest_match()` and only consumes the
returned match *size*.  The stdlib routine is modelled here faithfully,
following its CPython implementation:

* `__chain_b` builds `b2j`, the map from character to its ascending list of
  positions in `b`, and (since `isjunk` is `None` and `autojunk` is left
  `True`) removes every *popular* character — one occurring more than
  `len(b) // 100 + 1` times when `len(b) >= 200` — from `b2j` entirely
  (those characters land in `bpopular`, while `bjunk` stays empty).
* `find_longest_match()` (with the whole-string default bounds) runs a
  row-by-row dynamic program: `j2len` maps a `b`-position `j` to the length
  of the matching chain ending at the current `a`-position and `j`; the best
  triple `(besti, bestj, bestsize)` is updated only on strictly greater
  sizes, scanning rows in increasing `i` and each row in increasing `j`.
* The best block is then extended: first by equal non-junk characters on
  both ends, then by equal junk characters on both ends.  `bjunk` is empty
  in this program, so the junk phases never fire, but they are modelled
  anyway (`keep` is `not isbjunk(...)` for the first phase and
  `isbjunk(...)` for the second).
-/

/-- Is `c` removed from `b2j` by the autojunk heuristic of
`difflib.SequenceMatcher` (with `autojunk=True`, the source's default)? -/
def popularChar (b : List Char) (c : Char) : Bool :=
  decide (200 ≤ b.length) && decide (b.length / 100 + 1 < b.count c)

/-- The `b2j` table of `difflib.SequenceMatcher`: ascending positions of `c`
in `b`, with popular characters removed. -/
def b2jTable (b : List Char) (c : Char) : List ℕ :=
  if popularChar b c then []
  else (List.range b.length).filter (fun j => decide (b[j]? = some c))

/-- The row of the `j2len` dynamic program after processing the first `n`
characters of `a` (`chainRow a b n j` is `j2len[j]`, with `0` for absent
keys): the length of the chain of equal, non-popular characters ending at
`a`-position `n - 1` and `b`-position `j`. -/
def chainRow (a b : List Char) : ℕ → ℕ → ℕ
  | 0, _ => 0
  | n + 1, j =>
    match a[n]? with
    | none => 0
    | some c =>
      if j ∈ b2jTable b c then
        (if j = 0 then 0 else chainRow a b n (j - 1)) + 1
      else 0

lemma mem_b2jTable {b : List Char} {c : Char} {j : ℕ} :
    j ∈ b2jTable b c ↔ popularChar b c = false ∧ b[j]? = some c := by
  unfold b2jTable
  split
  · rename_i hpop
    simp [hpop]
  · rename_i hpop
    simp only [List.mem_filter, List.mem_range, decide_eq_true_eq,
      Bool.not_eq_true] at *
    constructor
    · rintro ⟨-, h⟩
      exact ⟨hpop, h⟩
    · rintro ⟨-, h⟩
      obtain ⟨hlt, -⟩ := List.getElem?_eq_some.1 h
      exact ⟨hlt, h⟩

lemma popularChar_eq_false {b : List Char} (hb : b.length < 200) (c : Char) :
    popularChar b c = false := by
  unfold popularChar
  simp [Nat.not_le.2 hb]

lemma chainRow_zero (a b : List Char) (j : ℕ) : chainRow a b 0 j = 0 := rfl

lemma chainRow_succ_of_none {a : List Char} (b : List Char) {n : ℕ}
    (ha : a[n]? = none) (j : ℕ) : chainRow a b (n + 1) j = 0 := by
  rw [chainRow, ha]

lemma chainRow_succ_of_some {a b : List Char} {n : ℕ} {c : Char}
    (ha : a[n]? = some c) (j : ℕ) :
    chainRow a b (n + 1) j =
      if j ∈ b2jTable b c then
        (if j = 0 then 0 else chainRow a b n (j - 1)) + 1
      else 0 := by
  rw [chainRow, ha]

/-- A positive `j2len` entry describes a genuine matching block ending at
the current cell. -/
lemma chainRow_pos_block {a b : List Char} :
    ∀ {n j k : ℕ}, chainRow a b (n + 1) j = k → 0 < k →
      k ≤ n + 1 ∧ k ≤ j + 1 ∧ IsBlock a b (n + 1 - k) (j + 1 - k) k := by
  intro n
  induction n with
  | zero =>
    intro j k h hk
    rcases ha : a[0]? with - | c
    · rw [chainRow_succ_of_none b ha] at h
      omega
    · rw [chainRow_succ_of_some ha] at h
      by_cases hmem : j ∈ b2jTable b c
      · rw [if_pos hmem] at h
        have hj : (if j = 0 then 0 else chainRow a b 0 (j - 1)) = 0 := by
          split <;> simp [chainRow_zero]
        rw [hj] at h
        refine ⟨by omega, by omega, fun t ht => ?_⟩
        have ht0 : t = 0 := by omega
        subst ht0
        have hk1 : k = 1 := by omega
        subst hk1
        exact ⟨c, by simpa using ha, by simpa using (mem_b2jTable.1 hmem).2⟩
      · rw [if_neg hmem] at h
        omega
  | succ n ih =>
    intro j k h hk
    rcases ha : a[n + 1]? with - | c
    · rw [chainRow_succ_of_none b ha] at h
      omega
    · rw [chainRow_succ_of_some ha] at h
      by_cases hmem : j ∈ b2jTable b c
      swap
      · rw [if_neg hmem] at h
        omega
      rw [if_pos hmem] at h
      have hbj : b[j]? = some c := (mem_b2jTable.1 hmem).2
      have single : k = 1 →
          k ≤ n + 2 ∧ k ≤ j + 1 ∧ IsBlock a b (n + 2 - k) (j + 1 - k) k := by
        rintro rfl
        refine ⟨by omega, by omega, fun t ht => ?_⟩
        have ht0 : t = 0 := by omega
        subst ht0
        refine ⟨c, ?_, ?_⟩
        · have h1 : n + 2 - 1 + 0 = n + 1 := by omega
          rwa [h1]
        · have h2 : j + 1 - 1 + 0 = j := by omega
          rwa [h2]
      rcases Nat.eq_zero_or_pos j with rfl | hj
      · rw [if_pos rfl] at h
        exact single (by omega)
      · rw [if_neg (by omega)] at h
        rcases Nat.eq_zero_or_pos (chainRow a b (n + 1) (j - 1)) with h0 | hpos
        · rw [h0] at h
          exact single (by omega)
        · obtain ⟨hm1, hm2, hblock⟩ := ih rfl hpos
          set m := chainRow a b (n + 1) (j - 1) with hm
          refine ⟨by omega, by omega, fun t ht => ?_⟩
          rcases Nat.lt_or_ge t m with htm | htm
          · obtain ⟨d, hd1, hd2⟩ := hblock t htm
            refine ⟨d, ?_, ?_⟩
            · have h1 : n + 2 - k + t = n + 1 - m + t := by omega
              rwa [h1]
            · have h2 : j + 1 - k + t = j - 1 + 1 - m + t := by omega
              rwa [h2]
          · have htm2 : t = m := by omega
            subst htm2
            refine ⟨c, ?_, ?_⟩
            · have h1 : n + 2 - k + m = n + 1 := by omega
              rwa [h1]
            · have h2 : j + 1 - k + m = j := by omega
              rwa [h2]

/-- Conversely, a block whose `b`-side avoids popular characters forces a
`j2len` entry at least as large at its final cell. -/
lemma block_le_chainRow {a b : List Char}
    (hpop : ∀ c, popularChar b c = false) :
    ∀ {k i j : ℕ}, 0 < k → IsBlock a b i j k →
      k ≤ chainRow a b (i + k) (j + k - 1) := by
  intro k
  induction k with
  | zero =>
    intro i j h _
    omega
  | succ k ih =>
    intro i j _ hblock
    obtain ⟨c, hc1, hc2⟩ := hblock k (by omega)
    have hmem : j + k ∈ b2jTable b c := mem_b2jTable.2 ⟨hpop c, hc2⟩
    have hrow : chainRow a b (i + k + 1) (j + k) =
        (if j + k = 0 then 0 else chainRow a b (i + k) (j + k - 1)) + 1 := by
      rw [chainRow_succ_of_some hc1, if_pos hmem]
    have hgoal : i + (k + 1) = i + k + 1 := by omega
    have hgoal2 : j + (k + 1) - 1 = j + k := by omega
    rw [hgoal, hgoal2, hrow]
    rcases Nat.eq_zero_or_pos k with rfl | hk
    · omega
    · have hih := ih hk (hblock.mono (by omega))
      rw [if_neg (by omega)]
      omega

/-- The inner loop of `find_longest_match` for row `i`: fold over the
ascending positions `js = b2j[a[i]]`, where `k = j2len.get(j-1, 0) + 1` is
read from the previous row `prev`, updating the best triple on strictly
greater `k`.  (The `j < blo` / `j >= bhi` guards of the source are vacuous
at the whole-string default bounds.) -/
def bestFold (i : ℕ) (prev : ℕ → ℕ) (js : List ℕ) (best : ℕ × ℕ × ℕ) : ℕ × ℕ × ℕ :=
  js.foldl (fun best j =>
    let k := (if j = 0 then 0 else prev (j - 1)) + 1
    if best.2.2 < k then (i + 1 - k, j + 1 - k, k) else best) best

/-- State threaded through the `for i in range(alo, ahi)` loop of
`find_longest_match`: the `j2len` dict (as a total function, `0` for absent
keys) and the best triple `(besti, bestj, bestsize)`. -/
structure FLMState where
  j2len : ℕ → ℕ
  best : ℕ × ℕ × ℕ

/-- One iteration of the outer loop of `find_longest_match`, on the indexed
character `(i, c)` of `a`: build `newj2len` and update the best triple. -/
def flmStep (b : List Char) (st : FLMState) (ic : ℕ × Char) : FLMState :=
  let js := b2jTable b ic.2
  { j2len := fun j => if j ∈ js then (if j = 0 then 0 else st.j2len (j - 1)) + 1 else 0
    best := bestFold ic.1 st.j2len js st.best }

/-- The dynamic-programming part of `find_longest_match`: the best triple
after all rows (`besti = alo = 0`, `bestj = blo = 0`, `bestsize = 0`
initially, `j2len = {}`). -/
def flmDP (a b : List Char) : ℕ × ℕ × ℕ :=
  (a.enum.foldl (flmStep b) ⟨fun _ => 0, (0, 0, 0)⟩).best

lemma bestFold_nil (i : ℕ) (prev : ℕ → ℕ) (best : ℕ × ℕ × ℕ) :
    bestFold i prev [] best = best := rfl

lemma bestFold_cons (i : ℕ) (prev : ℕ → ℕ) (j : ℕ) (js : List ℕ)
    (best : ℕ × ℕ × ℕ) :
    bestFold i prev (j :: js) best =
      bestFold i prev js
        (if best.2.2 < (if j = 0 then 0 else prev (j - 1)) + 1 then
          (i + 1 - ((if j = 0 then 0 else prev (j - 1)) + 1),
           j + 1 - ((if j = 0 then 0 else prev (j - 1)) + 1),
           (if j = 0 then 0 else prev (j - 1)) + 1)
        else best) := rfl

lemma bestFold_size_mono (i : ℕ) (prev : ℕ → ℕ) (js : List ℕ) :
    ∀ best : ℕ × ℕ × ℕ, best.2.2 ≤ (bestFold i prev js best).2.2 := by
  induction js with
  | nil => intro best; rw [bestFold_nil]
  | cons j js ih =>
    intro best
    rw [bestFold_cons]
    generalize (if j = 0 then 0 else prev (j - 1)) + 1 = k
    by_cases hlt : best.2.2 < k
    · rw [if_pos hlt]
      calc best.2.2 ≤ k := le_of_lt hlt
        _ = (i + 1 - k, j + 1 - k, k).2.2 := rfl
        _ ≤ _ := ih _
    · rw [if_neg hlt]
      exact ih best

lemma bestFold_size_ge (i : ℕ) (prev : ℕ → ℕ) (js : List ℕ) :
    ∀ best : ℕ × ℕ × ℕ, ∀ j ∈ js,
      (if j = 0 then 0 else prev (j - 1)) + 1 ≤ (bestFold i prev js best).2.2 := by
  induction js with
  | nil => intro best j hj; cases hj
  | cons j0 js ih =>
    intro best j hj
    rw [bestFold_cons]
    rcases List.mem_cons.1 hj with rfl | hmem
    · generalize (if j = 0 then 0 else prev (j - 1)) + 1 = k
      by_cases hlt : best.2.2 < k
      · rw [if_pos hlt]
        calc k = (i + 1 - k, j + 1 - k, k).2.2 := rfl
          _ ≤ _ := bestFold_size_mono i prev js _
      · rw [if_neg hlt]
        push_neg at hlt
        exact le_trans hlt (bestFold_size_mono i prev js best)
    · generalize (if j0 = 0 then 0 else prev (j0 - 1)) + 1 = k0
      by_cases hlt : best.2.2 < k0
      · rw [if_pos hlt]
        exact ih _ j hmem
      · rw [if_neg hlt]
        exact ih _ j hmem

lemma bestFold_result_cases (i : ℕ) (prev : ℕ → ℕ) (js : List ℕ) :
    ∀ best : ℕ × ℕ × ℕ,
      bestFold i prev js best = best ∨
        ∃ j ∈ js, bestFold i prev js best =
          (i + 1 - ((if j = 0 then 0 else prev (j - 1)) + 1),
           j + 1 - ((if j = 0 then 0 else prev (j - 1)) + 1),
           (if j = 0 then 0 else prev (j - 1)) + 1) := by
  induction js with
  | nil => intro best; exact Or.inl rfl
  | cons j0 js ih =>
    intro best
    rw [bestFold_cons]
    generalize hk : (if j0 = 0 then 0 else prev (j0 - 1)) + 1 = k0
    by_cases hlt : best.2.2 < k0
    · rw [if_pos hlt]
      rcases ih (i + 1 - k0, j0 + 1 - k0, k0) with heq | ⟨j, hj, heq⟩
      · refine Or.inr ⟨j0, List.mem_cons_self _ _, ?_⟩
        rw [hk]
        exact heq
      · exact Or.inr ⟨j, List.mem_cons_of_mem _ hj, heq⟩
    · rw [if_neg hlt]
      rcases ih best with heq | ⟨j, hj, heq⟩
      · exact Or.inl heq
      · exact Or.inr ⟨j, List.mem_cons_of_mem _ hj, heq⟩

/-- The invariant carried through the outer loop of `find_longest_match`:
after the first `n` rows, `j2len` is the `n`-th chain row, the best triple
is a genuine matching block, and it dominates every `j2len` entry seen so
far. -/
def dpInv (a b : List Char) (n : ℕ) (st : FLMState) : Prop :=
  st.j2len = chainRow a b n ∧
    IsBlock a b st.best.1 st.best.2.1 st.best.2.2 ∧
    ∀ m, m < n → ∀ j, chainRow a b (m + 1) j ≤ st.best.2.2

lemma dpInv_init (a b : List Char) :
    dpInv a b 0 ⟨fun _ => 0, (0, 0, 0)⟩ := by
  constructor
  · exact funext fun j => (chainRow_zero a b j).symm
  constructor
  · intro t ht
    exact absurd ht (by simp)
  · intro m hm
    omega

lemma dpInv_step {a b : List Char} {n : ℕ} {st : FLMState} {c : Char}
    (hst : dpInv a b n st) (ha : a[n]? = some c) :
    dpInv a b (n + 1) (flmStep b st (n, c)) := by
  obtain ⟨hrow, hsound, hcomp⟩ := hst
  have hval : ∀ j ∈ b2jTable b c,
      (if j = 0 then 0 else st.j2len (j - 1)) + 1 = chainRow a b (n + 1) j := by
    intro j hj
    rw [hrow, chainRow_succ_of_some ha, if_pos hj]
  refine ⟨?_, ?_, ?_⟩
  · funext j
    show (if j ∈ b2jTable b c then (if j = 0 then 0 else st.j2len (j - 1)) + 1 else 0) =
      chainRow a b (n + 1) j
    by_cases hj : j ∈ b2jTable b c
    · rw [if_pos hj, hval j hj]
    · rw [if_neg hj, chainRow_succ_of_some ha, if_neg hj]
  · show IsBlock a b (bestFold n st.j2len (b2jTable b c) st.best).1
      (bestFold n st.j2len (b2jTable b c) st.best).2.1
      (bestFold n st.j2len (b2jTable b c) st.best).2.2
    rcases bestFold_result_cases n st.j2len (b2jTable b c) st.best with heq | ⟨j, hj, heq⟩
    · rw [heq]; exact hsound
    · rw [heq]
      have hk : chainRow a b (n + 1) j = (if j = 0 then 0 else st.j2len (j - 1)) + 1 :=
        (hval j hj).symm
      obtain ⟨-, -, hblock⟩ := chainRow_pos_block hk (by omega)
      exact hblock
  · intro m hm j
    show chainRow a b (m + 1) j ≤ (bestFold n st.j2len (b2jTable b c) st.best).2.2
    rcases Nat.lt_or_ge m n with hmn | hmn
    · exact le_trans (hcomp m hmn j) (bestFold_size_mono _ _ _ _)
    · have hmn2 : m = n := by omega
      subst hmn2
      by_cases hj : j ∈ b2jTable b c
      · rw [← hval j hj]
        exact bestFold_size_ge _ _ _ _ j hj
      · rw [chainRow_succ_of_some ha, if_neg hj]
        omega

lemma dpInv_fold {a b : List Char} :
    ∀ (l : List Char) (n : ℕ) (st : FLMState), a.drop n = l → dpInv a b n st →
      dpInv a b (n + l.length) ((List.enumFrom n l).foldl (flmStep b) st) := by
  intro l
  induction l with
  | nil =>
    intro n st _ hst
    simpa using hst
  | cons c l ih =>
    intro n st hdrop hst
    have hc : a[n]? = some c := by
      have h := congrArg (fun t => t[0]?) hdrop
      simpa using h
    have hdrop2 : a.drop (n + 1) = l := by
      have h := congrArg List.tail hdrop
      rwa [List.tail_drop] at h
    have hstep := dpInv_step hst hc
    have hres := ih (n + 1) (flmStep b st (n, c)) hdrop2 hstep
    have harith : n + 1 + l.length = n + (c :: l).length := by
      simp only [List.length_cons]
      omega
    rw [harith] at hres
    simpa using hres

lemma flmDP_inv (a b : List Char) :
    dpInv a b a.length (a.enum.foldl (flmStep b) ⟨fun _ => 0, (0, 0, 0)⟩) := by
  have h := dpInv_fold (a := a) (b := b) a 0 ⟨fun _ => 0, (0, 0, 0)⟩ (by simp)
    (dpInv_init a b)
  simpa [List.enum] using h

lemma flmDP_isBlock (a b : List Char) :
    IsBlock a b (flmDP a b).1 (flmDP a b).2.1 (flmDP a b).2.2 :=
  (flmDP_inv a b).2.1

lemma flmDP_complete (a b : List Char) :
    ∀ m, m < a.length → ∀ j, chainRow a b (m + 1) j ≤ (flmDP a b).2.2 :=
  (flmDP_inv a b).2.2

/-- For queries shorter than the autojunk threshold the dynamic program
finds exactly the longest-common-substring length. -/
lemma flmDP_size_eq_lcs {a b : List Char} (hb : b.length < 200) :
    (flmDP a b).2.2 = lcsLen a b := by
  apply le_antisymm
  · exact (flmDP_isBlock a b).le_lcsLen
  · obtain ⟨i, j, hblock⟩ := lcs_isBlock a b
    rcases Nat.eq_zero_or_pos (lcsLen a b) with h0 | hk
    · omega
    · have hchain := block_le_chainRow (popularChar_eq_false hb) hk hblock
      have hia := hblock.bound_a hk
      have hcomp := flmDP_complete a b (i + lcsLen a b - 1) (by omega) (j + lcsLen a b - 1)
      have harith : i + lcsLen a b - 1 + 1 = i + lcsLen a b := by omega
      rw [harith] at hcomp
      omega

lemma IsBlock.extend_low {a b : List Char} {bi bj bs : ℕ} (h : IsBlock a b bi bj bs)
    (hbi : 0 < bi) (hbj : 0 < bj) {c : Char}
    (h1 : a[bi - 1]? = some c) (h2 : b[bj - 1]? = some c) :
    IsBlock a b (bi - 1) (bj - 1) (bs + 1) := by
  intro t ht
  rcases Nat.eq_zero_or_pos t with rfl | hpos
  · exact ⟨c, by simpa using h1, by simpa using h2⟩
  · obtain ⟨d, hd1, hd2⟩ := h (t - 1) (by omega)
    refine ⟨d, ?_, ?_⟩
    · have harith : bi - 1 + t = bi + (t - 1) := by omega
      rwa [harith]
    · have harith : bj - 1 + t = bj + (t - 1) := by omega
      rwa [harith]

lemma IsBlock.extend_high {a b : List Char} {bi bj bs : ℕ} (h : IsBlock a b bi bj bs)
    {c : Char} (h1 : a[bi + bs]? = some c) (h2 : b[bj + bs]? = some c) :
    IsBlock a b bi bj (bs + 1) := by
  intro t ht
  rcases Nat.lt_or_ge t bs with hlt | hge
  · exact h t hlt
  · have ht2 : t = bs := by omega
    subst ht2
    exact ⟨c, h1, h2⟩

/-- Guard of the two backward extension `while` loops of
`find_longest_match`: `besti > alo and bestj > blo and keep(b[bestj-1]) and
a[besti-1] == b[bestj-1]`, with `keep` instantiated to "not junk" or "junk"
depending on the phase. -/
def lowGuard (a b : List Char) (keep : Char → Bool) (bi bj : ℕ) : Bool :=
  decide (0 < bi) && decide (0 < bj) &&
    (match a[bi - 1]?, b[bj - 1]? with
     | some c1, some c2 => keep c2 && decide (c1 = c2)
     | _, _ => false)

/-- Guard of the two forward extension `while` loops: `besti+bestsize < ahi
and bestj+bestsize < bhi and keep(b[bestj+bestsize]) and a[besti+bestsize]
== b[bestj+bestsize]` (the bound checks are subsumed by the indexing
returning `some`). -/
def highGuard (a b : List Char) (keep : Char → Bool) (bi bj bs : ℕ) : Bool :=
  match a[bi + bs]?, b[bj + bs]? with
  | some c1, some c2 => keep c2 && decide (c1 = c2)
  | _, _ => false

/-- A backward extension `while` loop of `find_longest_match`.  Structural
recursion on a fuel argument; the loop decrements `besti` every iteration
and its guard requires `besti > 0`, so with `fuel = besti` the fuel can only
run out when `besti = 0`, where the guard is false anyway — the function is
therefore exactly the while loop when called with `fuel = bi`. -/
def extendLower (a b : List Char) (keep : Char → Bool) :
    ℕ → ℕ → ℕ → ℕ → ℕ × ℕ × ℕ
  | 0, bi, bj, bs => (bi, bj, bs)
  | fuel + 1, bi, bj, bs =>
    if lowGuard a b keep bi bj then
      extendLower a b keep fuel (bi - 1) (bj - 1) (bs + 1)
    else (bi, bj, bs)

/-- A forward extension `while` loop of `find_longest_match`.  The loop
increments `bestsize` and its guard requires `besti + bestsize <
len(seq1)`, so with `fuel = a.length - (bi + bs)` the fuel can only run out
when the guard is false — the function is exactly the while loop when
called with that fuel. -/
def extendHigher (a b : List Char) (keep : Char → Bool) :
    ℕ → ℕ → ℕ → ℕ → ℕ × ℕ × ℕ
  | 0, bi, bj, bs => (bi, bj, bs)
  | fuel + 1, bi, bj, bs =>
    if highGuard a b keep bi bj bs then
      extendHigher a b keep fuel bi bj (bs + 1)
    else (bi, bj, bs)

/-- The match size returned by
`SequenceMatcher(b=b).set_seq1(a).find_longest_match()`: the dynamic
program followed by the four extension loops (non-junk backward/forward,
then junk backward/forward).  `isjunk` is `None` in the source, so `bjunk`
is empty. -/
def find_longest_match_size (a b : List Char) : ℕ :=
  let junk : Char → Bool := fun _ => false
  let d := flmDP a b
  let e1 := extendLower a b (fun c => !junk c) d.1 d.1 d.2.1 d.2.2
  let e2 := extendHigher a b (fun c => !junk c) (a.length - (e1.1 + e1.2.2)) e1.1 e1.2.1 e1.2.2
  let e3 := extendLower a b junk e2.1 e2.1 e2.2.1 e2.2.2
  let e4 := extendHigher a b junk (a.length - (e3.1 + e3.2.2)) e3.1 e3.2.1 e3.2.2
  e4.2.2


lemma lowGuard_false_of_max {a b : List Char} {bi bj bs : ℕ}
    (h : IsBlock a b bi bj bs) (hmax : lcsLen a b ≤ bs) (keep : Char → Bool) :
    lowGuard a b keep bi bj = false := by
  by_contra hg
  rw [Bool.not_eq_false] at hg
  simp only [lowGuard, Bool.and_eq_true, decide_eq_true_eq] at hg
  obtain ⟨⟨hbi, hbj⟩, hmatch⟩ := hg
  rcases ha : a[bi - 1]? with - | c1 <;> rw [ha] at hmatch
  · simp at hmatch
  rcases hb2 : b[bj - 1]? with - | c2 <;> rw [hb2] at hmatch
  · simp at hmatch
  simp only [Bool.and_eq_true, decide_eq_true_eq] at hmatch
  obtain ⟨-, rfl⟩ := hmatch
  have hext := h.extend_low hbi hbj ha hb2
  have := hext.le_lcsLen
  omega

lemma highGuard_false_of_max {a b : List Char} {bi bj bs : ℕ}
    (h : IsBlock a b bi bj bs) (hmax : lcsLen a b ≤ bs) (keep : Char → Bool) :
    highGuard a b keep bi bj bs = false := by
  by_contra hg
  rw [Bool.not_eq_false] at hg
  simp only [highGuard] at hg
  rcases ha : a[bi + bs]? with - | c1 <;> rw [ha] at hg
  · simp at hg
  rcases hb2 : b[bj + bs]? with - | c2 <;> rw [hb2] at hg
  · simp at hg
  simp only [Bool.and_eq_true, decide_eq_true_eq] at hg
  obtain ⟨-, rfl⟩ := hg
  have hext := h.extend_high ha hb2
  have := hext.le_lcsLen
  omega

lemma extendLower_no_move {a b : List Char} {keep : Char → Bool} {bi bj bs : ℕ}
    (hg : lowGuard a b keep bi bj = false) (fuel : ℕ) :
    extendLower a b keep fuel bi bj bs = (bi, bj, bs) := by
  cases fuel with
  | zero => rfl
  | succ fuel => rw [extendLower, if_neg (by rw [hg]; simp)]

lemma extendHigher_no_move {a b : List Char} {keep : Char → Bool} {bi bj bs : ℕ}
    (hg : highGuard a b keep bi bj bs = false) (fuel : ℕ) :
    extendHigher a b keep fuel bi bj bs = (bi, bj, bs) := by
  cases fuel with
  | zero => rfl
  | succ fuel => rw [extendHigher, if_neg (by rw [hg]; simp)]

/-- For queries shorter than 200 characters (the autojunk threshold),
`find_longest_match` reports exactly the longest-common-substring length:
the extension loops cannot move because the block found by the dynamic
program is already of maximal length. -/
lemma find_longest_match_size_eq_lcs {a b : List Char} (hb : b.length < 200) :
    find_longest_match_size a b = lcsLen a b := by
  rcases hdp : flmDP a b with ⟨bi, bj, bs⟩
  have hblock : IsBlock a b bi bj bs := by
    have h := flmDP_isBlock a b
    rwa [hdp] at h
  have hsize : bs = lcsLen a b := by
    have h := flmDP_size_eq_lcs (a := a) hb
    rwa [hdp] at h
  have hmax : lcsLen a b ≤ bs := le_of_eq hsize.symm
  unfold find_longest_match_size
  rw [hdp]
  simp only [extendLower_no_move (lowGuard_false_of_max hblock hmax _),
    extendHigher_no_move (highGuard_false_of_max hblock hmax _)]
  exact hsize

/-! ### `_find_by_model`

From `src/comphardware/helpers.py` lines 99-144: iterate over the database
keys in order, tracking `current_score` (initially `0`) and `exact_model`
(initially `None`); update both only when the match size is strictly
greater; finally return `None` or `database[exact_model]`. -/

/-- The key loop of `_find_by_model`, generic in the per-key score. -/
def findBest (score : String → ℕ) (keys : List String) : ℕ × Option String :=
  keys.foldl (fun acc k =>
    let m := score k
    if acc.1 < m then (m, some k) else acc) (0, none)

set_option linter.unusedVariables false in
/-- Source function `_find_by_model`.  The `cls` parameter is taken (and
ignored) exactly as in the Python signature; the database is an
insertion-ordered association list modelling the Python dict, and the final
`database[exact_model]` is the association-list lookup. -/
def find_by_model {γ α : Type} (cls : γ) (database : List (String × α))
    (unexact_model : String) : Option α :=
  match (findBest (fun model => find_longest_match_size model.data unexact_model.data)
      (database.map Prod.fst)).2 with
  | none => none
  | some exact_model => dictGet exact_model database

lemma findBest_eq_foldl (score : String → ℕ) (keys : List String) :
    findBest score keys = keys.foldl (fun acc k =>
      let m := score k
      if acc.1 < m then (m, some k) else acc) (0, none) := rfl

lemma findBest_go (f : String → ℕ) :
    ∀ (ks : List String) (c : ℕ) (e : Option String),
      (ks.foldl (fun acc k =>
          let m := f k
          if acc.1 < m then (m, some k) else acc) (c, e) = (c, e) ∧
        ∀ k ∈ ks, f k ≤ c) ∨
      (∃ n k, ks[n]? = some k ∧
        ks.foldl (fun acc k =>
          let m := f k
          if acc.1 < m then (m, some k) else acc) (c, e) = (f k, some k) ∧
        c < f k ∧ (∀ p ∈ ks.take n, f p < f k) ∧ (∀ p ∈ ks, f p ≤ f k)) := by
  intro ks
  induction ks with
  | nil =>
    intro c e
    exact Or.inl ⟨rfl, fun k hk => absurd hk (List.not_mem_nil k)⟩
  | cons k0 ks ih =>
    intro c e
    rw [List.foldl_cons]
    by_cases h0 : c < f k0
    · rw [show (let m := f k0; if (c, e).1 < m then (m, some k0) else (c, e)) =
        (f k0, some k0) from if_pos h0]
      rcases ih (f k0) (some k0) with ⟨heq, hall⟩ | ⟨n, k, hk, heq, hck, hstrict, hall⟩
      · refine Or.inr ⟨0, k0, by simp, heq, h0, ?_, ?_⟩
        · intro p hp
          simp at hp
        · intro p hp
          rcases List.mem_cons.1 hp with rfl | hmem
          · exact le_refl _
          · exact hall p hmem
      · refine Or.inr ⟨n + 1, k, by simpa using hk, heq, lt_trans h0 hck, ?_, ?_⟩
        · intro p hp
          rw [List.take_succ_cons] at hp
          rcases List.mem_cons.1 hp with rfl | hmem
          · exact hck
          · exact hstrict p hmem
        · intro p hp
          rcases List.mem_cons.1 hp with rfl | hmem
          · exact le_of_lt hck
          · exact hall p hmem
    · rw [show (let m := f k0; if (c, e).1 < m then (m, some k0) else (c, e)) =
        (c, e) from if_neg h0]
      push_neg at h0
      rcases ih c e with ⟨heq, hall⟩ | ⟨n, k, hk, heq, hck, hstrict, hall⟩
      · refine Or.inl ⟨heq, ?_⟩
        intro k hk
        rcases List.mem_cons.1 hk with rfl | hmem
        · exact h0
        · exact hall k hmem
      · refine Or.inr ⟨n + 1, k, by simpa using hk, heq, hck, ?_, ?_⟩
        · intro p hp
          rw [List.take_succ_cons] at hp
          rcases List.mem_cons.1 hp with rfl | hmem
          · exact lt_of_le_of_lt h0 hck
          · exact hstrict p hmem
        · intro p hp
          rcases List.mem_cons.1 hp with rfl | hmem
          · exact le_trans h0 (le_of_lt hck)
          · exact hall p hmem

lemma findBest_none_iff (f : String → ℕ) (ks : List String) :
    (findBest f ks).2 = none ↔ ∀ k ∈ ks, f k = 0 := by
  rw [findBest_eq_foldl]
  rcases findBest_go f ks 0 none with ⟨heq, hall⟩ | ⟨n, k, hk, heq, hck, -, -⟩
  · rw [heq]
    simp only [true_iff]
    exact fun k hk => le_antisymm (hall k hk) (Nat.zero_le _)
  · rw [heq]
    simp only [false_iff]
    constructor
    · intro h
      cases h
    · intro hall
      have := hall k (List.getElem?_mem hk)
      omega

lemma findBest_some_spec (f : String → ℕ) (ks : List String) (k : String)
    (h : (findBest f ks).2 = some k) :
    ∃ n, ks[n]? = some k ∧ 0 < f k ∧
      (∀ p ∈ ks.take n, f p < f k) ∧ (∀ p ∈ ks, f p ≤ f k) := by
  rw [findBest_eq_foldl] at h
  rcases findBest_go f ks 0 none with ⟨heq, -⟩ | ⟨n, k', hk, heq, hck, hstrict, hall⟩
  · rw [heq] at h
    cases h
  · rw [heq] at h
    obtain rfl : k' = k := by simpa using h
    exact ⟨n, hk, hck, hstrict, hall⟩

lemma dictGet_mem {α : Type} {k : String} {v : α} :
    ∀ {db : List (String × α)}, dictGet k db = some v → (k, v) ∈ db := by
  intro db
  induction db with
  | nil => intro h; cases h
  | cons q rest ih =>
    intro h
    rw [show dictGet k (q :: rest) = if k = q.1 then some q.2 else dictGet k rest
      from rfl] at h
    split at h
    · rename_i hkq
      obtain rfl : q.2 = v := by simpa using h
      subst hkq
      exact List.mem_cons_self _ _
    · exact List.mem_cons_of_mem _ (ih h)

lemma dictGet_isSome_of_mem {α : Type} {k : String} :
    ∀ {db : List (String × α)}, k ∈ db.map Prod.fst → ∃ v, dictGet k db = some v := by
  intro db
  induction db with
  | nil => intro h; cases h
  | cons q rest ih =>
    intro h
    rw [show dictGet k (q :: rest) = if k = q.1 then some q.2 else dictGet k rest
      from rfl]
    by_cases hkq : k = q.1
    · exact ⟨q.2, if_pos hkq⟩
    · rw [if_neg hkq]
      rw [List.map_cons] at h
      rcases List.mem_cons.1 h with heq | hmem
      · exact absurd heq hkq
      · exact ih hmem

lemma dictGet_of_getElem {α : Type} :
    ∀ {db : List (String × α)}, (db.map Prod.fst).Nodup →
      ∀ {n : ℕ} {p : String × α}, db[n]? = some p → dictGet p.1 db = some p.2 := by
  intro db
  induction db with
  | nil =>
    intro _ n p h
    cases n <;> cases h
  | cons q rest ih =>
    intro hnd n p h
    rw [List.map_cons, List.nodup_cons] at hnd
    rw [show dictGet p.1 (q :: rest) = if p.1 = q.1 then some q.2 else dictGet p.1 rest
      from rfl]
    cases n with
    | zero =>
      obtain rfl : q = p := by simpa using h
      rw [if_pos rfl]
    | succ n =>
      rw [List.getElem?_cons_succ] at h
      have hpmem : p ∈ rest := List.getElem?_mem h
      have hne : p.1 ≠ q.1 := by
        intro hcontra
        exact hnd.1 (hcontra ▸ List.mem_map_of_mem Prod.fst hpmem)
      rw [if_neg hne]
      exact ih hnd.2 h

lemma string_length_data (s : String) : s.data.length = s.length := rfl

/-- The per-key score used by `_find_by_model` equals the
longest-common-substring length for sub-autojunk-threshold queries. -/
lemma score_eq_lcs {q : String} (hq : q.length < 200) (m : String) :
    find_longest_match_size m.data q.data = lcsLen m.data q.data :=
  find_longest_match_size_eq_lcs (by rw [string_length_data]; exact hq)

/-! ### Matcher claim theorems -/

/-- The winning score of the key loop, for any database and query. -/
lemma find_by_model_cases {γ α : Type} (cls : γ) (db : List (String × α))
    (q : String) :
    find_by_model cls db q =
      match (findBest (fun model => find_longest_match_size model.data q.data)
          (db.map Prod.fst)).2 with
      | none => none
      | some exact_model => dictGet exact_model db := rfl

/-- Claim C1 (amended: for queries shorter than difflib's 200-character
autojunk threshold).  `_find_by_model` returns the record stored under the
first key, in the database's iteration order, whose longest contiguous
common substring with the query (case-sensitive; the query is not
casefolded) has maximal length among all keys, provided that maximum is
positive; a later key replaces the tracked winner only if its
common-substring length is strictly greater, so every earlier key scores
strictly less and every key scores at most the winner. -/
theorem find_by_model_first_maximal {γ α : Type} (cls : γ)
    (db : List (String × α)) (q : String) (hq : q.length < 200)
    (hnd : (db.map Prod.fst).Nodup) :
    (find_by_model cls db q = none ∧ ∀ p ∈ db, lcsLen p.1.data q.data = 0) ∨
      (∃ n p, db[n]? = some p ∧ find_by_model cls db q = some p.2 ∧
        0 < lcsLen p.1.data q.data ∧
        (∀ p' ∈ db.take n, lcsLen p'.1.data q.data < lcsLen p.1.data q.data) ∧
        (∀ p' ∈ db, lcsLen p'.1.data q.data ≤ lcsLen p.1.data q.data)) := by
  rw [find_by_model_cases]
  rcases hbest : (findBest (fun model => find_longest_match_size model.data q.data)
      (db.map Prod.fst)).2 with - | k
  · left
    refine ⟨rfl, fun p hp => ?_⟩
    have h := (findBest_none_iff _ _).1 hbest p.1 (List.mem_map_of_mem Prod.fst hp)
    rwa [score_eq_lcs hq] at h
  · right
    obtain ⟨n, hk, hpos, hstrict, hall⟩ := findBest_some_spec _ _ _ hbest
    rw [List.getElem?_map] at hk
    rcases hdb : db[n]? with - | p
    · rw [hdb] at hk
      cases hk
    · rw [hdb] at hk
      have hp1 : p.1 = k := by simpa using hk
      refine ⟨n, p, hdb, ?_, ?_, ?_, ?_⟩
      · show dictGet k db = some p.2
        rw [← hp1]
        exact dictGet_of_getElem hnd hdb
      · rw [← score_eq_lcs hq]
        rwa [hp1]
      · intro p' hp'
        have hmem : p'.1 ∈ (db.map Prod.fst).take n := by
          rw [← List.map_take]
          exact List.mem_map_of_mem Prod.fst hp'
        have h := hstrict p'.1 hmem
        rw [score_eq_lcs hq, score_eq_lcs hq, ← hp1] at h
        exact h
      · intro p' hp'
        have h := hall p'.1 (List.mem_map_of_mem Prod.fst hp')
        rw [score_eq_lcs hq, score_eq_lcs hq, ← hp1] at h
        exact h

/-- The 200-character query for the C1 counterexample: `"ab" * 100`. -/
def autojunkQueryAB : String := ⟨(List.replicate 100 ['a', 'b']).flatten⟩

/-- The 200-character query for the C2 counterexample: `"cd" * 100`. -/
def autojunkQueryCD : String := ⟨(List.replicate 100 ['c', 'd']).flatten⟩

set_option maxRecDepth 4000 in
/-- Claim C1 counterexample: for the 200-character query `"ab" * 100`,
difflib's autojunk heuristic removes both characters from the match table,
so `_find_by_model` returns `None` although the (sole, hence first maximal)
key `"ba"` has a longest contiguous common substring of positive length 2
with the query — the claim as stated predicts its record would be
returned. -/
theorem find_by_model_autojunk_cex :
    find_by_model () [("ba", 0)] autojunkQueryAB = none ∧
      lcsLen "ba".data autojunkQueryAB.data = 2 ∧
      autojunkQueryAB.length = 200 := by
  refine ⟨by decide, by decide, by decide⟩

/-- Claim C1 witness: the spec's own tie-break example — keys `"i5-760"` and
`"i5-7600"` both share the 5-character substring `"i5-76"` with the query,
and the first one wins. -/
theorem find_by_model_first_maximal_witness :
    (("i5-76" : String).length < 200) ∧
      (([("i5-760", 1), ("i5-7600", 2)] : List (String × ℕ)).map Prod.fst).Nodup ∧
      ((find_by_model () [("i5-760", 1), ("i5-7600", 2)] "i5-76" = none ∧
          ∀ p ∈ [("i5-760", 1), ("i5-7600", 2)], lcsLen p.1.data "i5-76".data = 0) ∨
        (∃ n p, ([("i5-760", 1), ("i5-7600", 2)] : List (String × ℕ))[n]? = some p ∧
          find_by_model () [("i5-760", 1), ("i5-7600", 2)] "i5-76" = some p.2 ∧
          0 < lcsLen p.1.data "i5-76".data ∧
          (∀ p' ∈ ([("i5-760", 1), ("i5-7600", 2)] : List (String × ℕ)).take n,
            lcsLen p'.1.data "i5-76".data < lcsLen p.1.data "i5-76".data) ∧
          (∀ p' ∈ [("i5-760", 1), ("i5-7600", 2)],
            lcsLen p'.1.data "i5-76".data ≤ lcsLen p.1.data "i5-76".data))) :=
  ⟨by decide, by decide,
    find_by_model_first_maximal () [("i5-760", 1), ("i5-7600", 2)] "i5-76"
      (by decide) (by decide)⟩

/-- Claim C2 (amended: for queries shorter than difflib's 200-character
autojunk threshold).  `_find_by_model` returns the `None` sentinel exactly
when the database is empty or no key has a positive longest contiguous
common substring with the query; the function is total (modelled by a total
Lean function), so it never raises. -/
theorem find_by_model_none_iff {γ α : Type} (cls : γ) (db : List (String × α))
    (q : String) (hq : q.length < 200) :
    find_by_model cls db q = none ↔
      (db = [] ∨ ∀ p ∈ db, lcsLen p.1.data q.data = 0) := by
  rw [find_by_model_cases]
  rcases hbest : (findBest (fun model => find_longest_match_size model.data q.data)
      (db.map Prod.fst)).2 with - | k
  · simp only [true_iff]
    right
    intro p hp
    have h := (findBest_none_iff _ _).1 hbest p.1 (List.mem_map_of_mem Prod.fst hp)
    rwa [score_eq_lcs hq] at h
  · obtain ⟨n, hk, hpos, -, -⟩ := findBest_some_spec _ _ _ hbest
    have hkmem : k ∈ db.map Prod.fst := List.getElem?_mem hk
    obtain ⟨v, hv⟩ := dictGet_isSome_of_mem hkmem
    show dictGet k db = none ↔ (db = [] ∨ ∀ p ∈ db, lcsLen p.1.data q.data = 0)
    rw [hv]
    obtain ⟨p, hpmem, hp1⟩ := List.mem_map.1 hkmem
    constructor
    · intro h
      cases h
    · intro hor
      exfalso
      rcases hor with hnil | hall
      · rw [hnil] at hpmem
        cases hpmem
      · have hz := hall p hpmem
        rw [← score_eq_lcs hq, hp1] at hz
        omega

set_option maxRecDepth 4000 in
/-- Claim C2 counterexample: for the 200-character query `"cd" * 100` and the
nonempty database `{"dc": 1}`, the key has a positive
longest-common-substring length 2 with the query, yet `_find_by_model`
returns `None` — the claimed equivalence fails at the autojunk
threshold. -/
theorem find_by_model_none_iff_cex :
    find_by_model () [("dc", 1)] autojunkQueryCD = none ∧
      ([("dc", 1)] : List (String × ℕ)) ≠ [] ∧
      lcsLen "dc".data autojunkQueryCD.data = 2 := by
  refine ⟨by decide, by decide, by decide⟩

/-- Claim C2 witness: the empty database yields `None` for any query. -/
theorem find_by_model_none_iff_witness :
    (("anything" : String).length < 200) ∧
      (find_by_model () ([] : List (String × ℕ)) "anything" = none ↔
        (([] : List (String × ℕ)) = [] ∨
          ∀ p ∈ ([] : List (String × ℕ)), lcsLen p.1.data "anything".data = 0)) :=
  ⟨by decide, find_by_model_none_iff () [] "anything" (by decide)⟩

/-- Claim C9.  For every database and query (no length restriction), the
result of `_find_by_model` is `None` or exactly a record stored in the
database (the value of a key-value pair present in it — the matcher never
builds a record); and the result does not depend on the `cls` parameter,
which is never used. -/
theorem find_by_model_stored_record {γ γ' α : Type} (cls : γ) (cls' : γ')
    (db : List (String × α)) (q : String) :
    (find_by_model cls db q = none ∨
      ∃ p ∈ db, find_by_model cls db q = some p.2) ∧
      find_by_model cls db q = find_by_model cls' db q := by
  refine ⟨?_, rfl⟩
  rw [find_by_model_cases]
  rcases hbest : (findBest (fun model => find_longest_match_size model.data q.data)
      (db.map Prod.fst)).2 with - | k
  · exact Or.inl rfl
  · obtain ⟨n, hk, -, -, -⟩ := findBest_some_spec _ _ _ hbest
    obtain ⟨v, hv⟩ := dictGet_isSome_of_mem (List.getElem?_mem hk)
    exact Or.inr ⟨(k, v), dictGet_mem hv, hv⟩

/-! ### Unit-normalizer claim theorems -/

/-- Claim C3.  For every integer value and every unit string compared
case-insensitively, `human_readable_to_bytes` multiplies by 1 for `b`, 1024
for `kb`/`kib`, 1024² for `mb`/`mib`, 1024³ for `gb`/`gib`, 1024⁴ for
`tb`/`tib`, and `human_readable_to_hertz` multiplies by 10³/10⁶/10⁹/10¹²
for `khz`/`mhz`/`ghz`/`thz`. -/
theorem unit_conversion_table (v : ℤ) (u : String) :
    (lowerString u = "b" → human_readable_to_bytes v u = v) ∧
      (lowerString u = "kb" ∨ lowerString u = "kib" →
        human_readable_to_bytes v u = v * 1024) ∧
      (lowerString u = "mb" ∨ lowerString u = "mib" →
        human_readable_to_bytes v u = v * 1024 ^ 2) ∧
      (lowerString u = "gb" ∨ lowerString u = "gib" →
        human_readable_to_bytes v u = v * 1024 ^ 3) ∧
      (lowerString u = "tb" ∨ lowerString u = "tib" →
        human_readable_to_bytes v u = v * 1024 ^ 4) ∧
      (lowerString u = "khz" → human_readable_to_hertz v u = v * 10 ^ 3) ∧
      (lowerString u = "mhz" → human_readable_to_hertz v u = v * 10 ^ 6) ∧
      (lowerString u = "ghz" → human_readable_to_hertz v u = v * 10 ^ 9) ∧
      (lowerString u = "thz" → human_readable_to_hertz v u = v * 10 ^ 12) := by
  refine ⟨?_, ?_, ?_, ?_, ?_, ?_, ?_, ?_, ?_⟩ <;>
    first
      | (rintro (h | h) <;> simp [human_readable_to_bytes, h])
      | (intro h; simp [human_readable_to_bytes, human_readable_to_hertz, h])

/-- Claim C3 witness: `to_bytes(8, "GB") = 8·1024³` and
`to_hertz(3, "GHz") = 3·10⁹`, with the case-insensitive lookup
discharged on the concrete strings. -/
theorem unit_conversion_table_witness :
    (lowerString "GB" = "gb" ∨ lowerString "GB" = "gib") ∧
      human_readable_to_bytes (8 : ℤ) "GB" = 8 * 1024 ^ 3 ∧
      lowerString "GHz" = "ghz" ∧
      human_readable_to_hertz (3 : ℤ) "GHz" = 3 * 10 ^ 9 :=
  ⟨by decide,
    (unit_conversion_table 8 "GB").2.2.2.1 (by decide),
    by decide,
    (unit_conversion_table 3 "GHz").2.2.2.2.2.2.2.1 (by decide)⟩

/-- Claim C4.  A unit string outside the fixed vocabulary (after casefolding)
passes the value through both converters unchanged, with no error path. -/
theorem unit_fallback (v : ℤ) (u : String)
    (hb : lowerString u ∉ (["b", "kb", "kib", "mb", "mib", "gb", "gib",
      "tb", "tib"] : List String))
    (hh : lowerString u ∉ (["khz", "mhz", "ghz", "thz"] : List String)) :
    human_readable_to_bytes v u = v ∧ human_readable_to_hertz v u = v := by
  simp only [List.mem_cons, List.not_mem_nil, or_false, not_or] at hb hh
  obtain ⟨h1, h2, h3, h4, h5, h6, h7, h8, h9⟩ := hb
  obtain ⟨g1, g2, g3, g4⟩ := hh
  constructor
  · simp [human_readable_to_bytes, h1, h2, h3, h4, h5, h6, h7, h8, h9]
  · simp [human_readable_to_hertz, g1, g2, g3, g4]

/-- Claim C4 witness: `to_bytes(42, "unknown-unit") = 42` and likewise for
hertz. -/
theorem unit_fallback_witness :
    (lowerString "unknown-unit" ∉ (["b", "kb", "kib", "mb", "mib", "gb",
        "gib", "tb", "tib"] : List String)) ∧
      (lowerString "unknown-unit" ∉ (["khz", "mhz", "ghz", "thz"] : List String)) ∧
      (human_readable_to_bytes (42 : ℤ) "unknown-unit" = 42 ∧
        human_readable_to_hertz (42 : ℤ) "unknown-unit" = 42) :=
  ⟨by decide, by decide, unit_fallback 42 "unknown-unit" (by decide) (by decide)⟩

/-- Claim C10.  Both converters are linear in the value for every unit string
(recognized or not): `f v u = v * f 1 u`, both map 0 to 0, and both are
monotone in the value. -/
theorem conversion_linear (v w : ℤ) (u : String) :
    human_readable_to_bytes v u = v * human_readable_to_bytes 1 u ∧
      human_readable_to_hertz v u = v * human_readable_to_hertz 1 u ∧
      human_readable_to_bytes (0 : ℤ) u = 0 ∧
      human_readable_to_hertz (0 : ℤ) u = 0 ∧
      (v ≤ w →
        human_readable_to_bytes v u ≤ human_readable_to_bytes w u ∧
          human_readable_to_hertz v u ≤ human_readable_to_hertz w u) := by
  have hbv := human_readable_to_bytes_eq_mul v u
  have hbw := human_readable_to_bytes_eq_mul w u
  have hb0 := human_readable_to_bytes_eq_mul 0 u
  have hhv := human_readable_to_hertz_eq_mul v u
  have hhw := human_readable_to_hertz_eq_mul w u
  have hh0 := human_readable_to_hertz_eq_mul 0 u
  have hbp := bytesMultiplier_pos u
  have hhp := hertzMultiplier_pos u
  refine ⟨hbv, hhv, by rw [hb0]; ring, by rw [hh0]; ring, fun hvw => ⟨?_, ?_⟩⟩
  · rw [hbv, hbw]
    exact mul_le_mul_of_nonneg_right hvw (le_of_lt hbp)
  · rw [hhv, hhw]
    exact mul_le_mul_of_nonneg_right hvw (le_of_lt hhp)

/-- Claim C10 witness: linearity, zero and monotonicity evaluated at
`v = 2 ≤ w = 3` with unit `"MB"`. -/
theorem conversion_linear_witness :
    human_readable_to_bytes (2 : ℤ) "MB" = 2 * human_readable_to_bytes 1 "MB" ∧
      human_readable_to_hertz (2 : ℤ) "MB" = 2 * human_readable_to_hertz 1 "MB" ∧
      human_readable_to_bytes (0 : ℤ) "MB" = 0 ∧
      human_readable_to_hertz (0 : ℤ) "MB" = 0 ∧
      ((2 : ℤ) ≤ 3 →
        human_readable_to_bytes (2 : ℤ) "MB" ≤ human_readable_to_bytes 3 "MB" ∧
          human_readable_to_hertz (2 : ℤ) "MB" ≤ human_readable_to_hertz 3 "MB") :=
  conversion_linear 2 3 "MB"

/-! ### RAM-extraction claim theorems -/

lemma ramScan_none {parts : List String}
    (h : ∀ p ∈ parts, isDigitToken p = false) : ramScan parts = none := by
  induction parts with
  | nil => rfl
  | cons p rest ih =>
    rw [show ramScan (p :: rest) =
      (if isDigitToken p then some (digitsToNat p.data, headOrB rest)
        else ramScan rest) from rfl]
    rw [if_neg (by rw [h p (List.mem_cons_self _ _)]; simp)]
    exact ih fun q hq => h q (List.mem_cons_of_mem _ hq)

lemma ramScan_found :
    ∀ {parts : List String} {n : ℕ} {p : String}, parts[n]? = some p →
      isDigitToken p = true →
      (∀ m pm, m < n → parts[m]? = some pm → isDigitToken pm = false) →
      ramScan parts = some (digitsToNat p.data, (parts[n + 1]?).getD "b") := by
  intro parts
  induction parts with
  | nil =>
    intro n p h
    rw [List.getElem?_nil] at h
    cases h
  | cons p0 rest ih =>
    intro n p hn hdig hbefore
    cases n with
    | zero =>
      obtain rfl : p0 = p := by simpa using hn
      rw [show ramScan (p0 :: rest) =
        (if isDigitToken p0 then some (digitsToNat p0.data, headOrB rest)
          else ramScan rest) from rfl]
      rw [if_pos hdig]
      cases rest with
      | nil => simp [headOrB]
      | cons u us => simp [headOrB]
    | succ n =>
      have h0 : isDigitToken p0 = false :=
        hbefore 0 p0 (by omega) (by simp)
      rw [show ramScan (p0 :: rest) =
        (if isDigitToken p0 then some (digitsToNat p0.data, headOrB rest)
          else ramScan rest) from rfl]
      rw [if_neg (by rw [h0]; simp)]
      rw [List.getElem?_cons_succ] at hn
      have hres := ih hn hdig
        (fun m pm hm hpm => hbefore (m + 1) pm (by omega) (by simpa using hpm))
      rw [hres]
      rw [List.getElem?_cons_succ]

/-- Claim C5 (amended).  The RAM-extraction step of `setup_from_clutter`
casefolds the string and splits it on the *single space character* (keeping
empty tokens), scans left to right for the first token consisting entirely
of digits (Python `isdigit`, so no sign), takes as unit the token
immediately following it (or `"b"` when the numeric token is last), and
converts with `human_readable_to_bytes`; when no digit token exists the
swallowed exception yields an absent result.  The spec's examples hold:
`extract("8 GB RAM") = 8·1024³` bytes, `extract("8") = 8` bytes,
`extract("no digits here")` is absent. -/
theorem ram_extraction_spec :
    (∀ (s : String),
      ((∀ p ∈ pySplitSpace (lowerString s), isDigitToken p = false) →
        ram_from_clutter s = none) ∧
      (∀ n p, (pySplitSpace (lowerString s))[n]? = some p →
        isDigitToken p = true →
        (∀ m pm, m < n → (pySplitSpace (lowerString s))[m]? = some pm →
          isDigitToken pm = false) →
        ram_from_clutter s = some (human_readable_to_bytes
          (digitsToNat p.data : ℤ)
          (((pySplitSpace (lowerString s))[n + 1]?).getD "b")))) ∧
      ram_from_clutter "8 GB RAM" = some (8 * 1024 ^ 3) ∧
      ram_from_clutter "8" = some 8 ∧
      ram_from_clutter "no digits here" = none := by
  refine ⟨fun s => ⟨?_, ?_⟩, by decide, by decide, by decide⟩
  · intro hnone
    unfold ram_from_clutter
    rw [ramScan_none hnone]
  · intro n p hn hdig hbefore
    unfold ram_from_clutter
    rw [ramScan_found hn hdig hbefore]

/-- Claim C5 witness: the general characterization applied at
`"16 MB x"` — the first digit token is `"16"` at index 0, the unit is the
following token `"mb"`. -/
theorem ram_extraction_spec_witness :
    ((pySplitSpace (lowerString "16 MB x"))[0]? = some "16") ∧
      isDigitToken "16" = true ∧
      ram_from_clutter "16 MB x" = some (human_readable_to_bytes
        (digitsToNat ("16" : String).data : ℤ)
        (((pySplitSpace (lowerString "16 MB x"))[0 + 1]?).getD "b")) :=
  ⟨by decide, by decide,
    (ram_extraction_spec.1 "16 MB x").2 0 "16" (by decide) (by decide)
      (fun m pm hm hpm => absurd hm (by omega))⟩

/-- Claim C5 counterexample: on `"8  gb"` (two spaces) the claimed
whitespace-splitting semantics reads 8 gibibytes, but the code's
single-space split produces an empty middle token, making the unit the
empty string and the result the bare value 8. -/
theorem ram_space_split_cex :
    ram_from_clutter "8  gb" = some 8 ∧
      ramSpecWhitespace "8  gb" = some (8 * 1024 ^ 3) ∧
      (8 : ℤ) ≠ 8 * 1024 ^ 3 := by
  refine ⟨by decide, by decide, by decide⟩

/-! ### Records and databases (`src/database-scripts/helpers.py`)

`CPU.__init__` (lines 48-71) and `GPU.__init__` (lines 74-100) store the
given specs and compute the derived score at construction.  Python floats
are modelled as rationals; `corespeed` is a rational because
`convert-divinity76s-database.py` constructs CPUs with a float corespeed
(`2.66 GHz` → `2.66e9`). -/

structure CPU where
  model : String
  product_id : ℤ
  vendor : String
  corecount : ℤ
  corespeed : ℚ
  score : ℚ

/-- Constructor `CPU.__init__`: store the specs; `corescore = float(corecount) / 8.0`,
`speedscore = corespeed / (5.30 * 10 ** 9)`,
`score = (corescore + speedscore) * 100.0 / 2.0`. -/
def CPU.init (model : String) (product_id : ℤ) (vendor : String)
    (corecount : ℤ) (corespeed : ℚ) : CPU :=
  let corescore : ℚ := (corecount : ℚ) / 8.0
  let speedscore : ℚ := corespeed / (5.30 * 10 ^ 9)
  ⟨model, product_id, vendor, corecount, corespeed,
    (corescore + speedscore) * 100.0 / 2.0⟩

structure GPU where
  model : String
  vendor : String
  vram : ℤ
  corespeed : ℚ
  codename : String
  score : ℚ

/-- Constructor `GPU.__init__`: store the specs;
`vramscore = float(vram) / (10.0 * 1024 ** 3)`,
`corespeedscore = float(corespeed) / (1440.0 * 10 ** 6)`,
`score = (vramscore + corespeedscore) * 100.0 / 2.0`. -/
def GPU.init (model vendor : String) (vram : ℤ) (corespeed : ℚ)
    (codename : String) : GPU :=
  let vramscore : ℚ := (vram : ℚ) / (10.0 * 1024 ^ 3)
  let corespeedscore : ℚ := corespeed / (1440.0 * 10 ^ 6)
  ⟨model, vendor, vram, corespeed, codename,
    (vramscore + corespeedscore) * 100.0 / 2.0⟩

/-- A CPU entry as stored in the JSON database file by `save_cpus`:
the spec fields plus the precomputed score. -/
structure SavedCPU where
  product_id : ℤ
  vendor : String
  corecount : ℤ
  corespeed : ℚ
  score : ℚ

/-- A GPU entry as stored in the JSON database file by `save_gpus`. -/
structure SavedGPU where
  vendor : String
  vram : ℤ
  corespeed : ℚ
  codename : String
  score : ℚ

/-- Insertion into the association-list model of a Python dict: an existing
key keeps its position and gets the new value, a new key is appended — the
semantics of the dict comprehensions in `save_cpus`/`save_gpus`. -/
def dictInsert {α : Type} (db : List (String × α)) (k : String) (v : α) :
    List (String × α) :=
  match db with
  | [] => [(k, v)]
  | (k', v') :: rest =>
    if k' = k then (k', v) :: rest else (k', v') :: dictInsert rest k v

/-- The entry written for a CPU by `save_cpus` (lines 121-133). -/
def savedOfCPU (c : CPU) : SavedCPU :=
  ⟨c.product_id, c.vendor, c.corecount, c.corespeed, c.score⟩

/-- Source function `save_cpus`: the dict comprehension keyed by `cpu.model` (the file
write itself is I/O outside the model). -/
def save_cpus (cpus : List CPU) : List (String × SavedCPU) :=
  cpus.foldl (fun d c => dictInsert d c.model (savedOfCPU c)) []

/-- Source function `load_cpus` (lines 103-118): rebuild a `CPU` from each entry's spec
fields via the constructor — the stored `score` field is not read. -/
def load_cpus (raw : List (String × SavedCPU)) : List CPU :=
  raw.map (fun p => CPU.init p.1 p.2.product_id p.2.vendor p.2.corecount p.2.corespeed)

/-- The entry written for a GPU by `save_gpus` (lines 155-168). -/
def savedOfGPU (g : GPU) : SavedGPU :=
  ⟨g.vendor, g.vram, g.corespeed, g.codename, g.score⟩

/-- Source function `save_gpus`: the dict comprehension keyed by `gpu.model`. -/
def save_gpus (gpus : List GPU) : List (String × SavedGPU) :=
  gpus.foldl (fun d g => dictInsert d g.model (savedOfGPU g)) []

/-- Source function `load_gpus` (lines 136-152): rebuild each `GPU` from the spec fields;
the stored `score` is not read. -/
def load_gpus (raw : List (String × SavedGPU)) : List GPU :=
  raw.map (fun p => GPU.init p.1 p.2.vendor p.2.vram p.2.corespeed p.2.codename)

/-! ### The update scripts (C8)

`update-cpu-database.py` sorts old CPUs by product id, extends the parsed
list with them, sorts everything by model and saves;
`update-gpu-database.py` does the same per-vendor for GPUs;
`convert-divinity76s-database.py` saves `convert(source)` directly, with no
sort.  Python `list.sort` is a stable comparison sort, modelled by
`List.mergeSort`.  Network downloading and page scraping
(`intel_ark.parse`, `wiki_gpu_tables.parse`, `download`) are external
inputs, passed as parameters. -/

/-- Python `cpus.sort(key=lambda cpu: cpu.model)`. -/
def sortCPUsByModel (l : List CPU) : List CPU :=
  l.mergeSort (fun x y => decide (x.model ≤ y.model))

/-- Python `old_cpus.sort(key=lambda cpu: cpu.product_id)`. -/
def sortCPUsByPid (l : List CPU) : List CPU :=
  l.mergeSort (fun x y => decide (x.product_id ≤ y.product_id))

/-- Python `gpus.sort(key=lambda gpu: gpu.model)`. -/
def sortGPUsByModel (l : List GPU) : List GPU :=
  l.mergeSort (fun x y => decide (x.model ≤ y.model))

/-- The `__main__` of `update-cpu-database.py` (lines 24-38), with the
scraper output as a parameter: load and sort the old CPUs by product id,
parse, extend with the old ones, sort by model, save. -/
def update_cpu_main (parsed old_cpus : List CPU) : List (String × SavedCPU) :=
  let old_sorted := sortCPUsByPid old_cpus
  save_cpus (sortCPUsByModel (parsed ++ old_sorted))

/-- The `__main__` of `update-gpu-database.py` (lines 36-55), with the
per-vendor scraper outputs as parameters: sort old GPUs by model, extend
the parsed per-vendor lists with them, sort by model, save. -/
def update_gpu_main (parsedNvidia parsedAmd parsedIntel old_gpus : List GPU) :
    List (String × SavedGPU) :=
  let old_sorted := sortGPUsByModel old_gpus
  save_gpus (sortGPUsByModel (parsedNvidia ++ parsedAmd ++ parsedIntel ++ old_sorted))

/-! ### `convert-divinity76s-database.py` -/

/-- One entry of divinity76's source database, as far as `convert` reads
it: the `"Essentials"` and `"Performance"` sub-objects as string-to-string
dicts. -/
structure RawCPUEntry where
  essentials : List (String × String)
  performance : List (String × String)

/-- Python `float(...)` on a plain decimal numeral (optionally signed, an
integer part and/or a fractional part).  The exponent and special-value
forms accepted by Python never occur in the frequency column this parser is
applied to and are not modelled. -/
def parseDecimal (l : List Char) : Option ℚ :=
  match splitChars (fun c => c = '.') l with
  | [ip] =>
    if !ip.isEmpty && ip.all Char.isDigit then some (digitsToNat ip : ℚ) else none
  | [ip, fp] =>
    if (ip.all Char.isDigit && fp.all Char.isDigit) && !(ip.isEmpty && fp.isEmpty) then
      some ((digitsToNat ip : ℚ) + (digitsToNat fp : ℚ) / (10 : ℚ) ^ fp.length)
    else none
  | _ => none

/-- Python `float(...)` on a string. -/
def pyParseFloat (s : String) : Option ℚ :=
  match s.data with
  | '-' :: rest => (parseDecimal rest).map (fun x => -x)
  | '+' :: rest => parseDecimal rest
  | l => parseDecimal l

/-- Outcome of one iteration of the loop in `convert`: a converted CPU, a
`continue` (from a caught `ValueError`/`KeyError` or a missing processor
number), or an uncaught exception (`IndexError` from `raw[1]` when the
frequency string has no space — not in the `except` clause). -/
inductive ConvOutcome
  | ok (c : CPU)
  | skip
  | crash

/-- One iteration of `convert` (lines 70-98). -/
def convertOne (key : String) (specs : RawCPUEntry) : ConvOutcome :=
  match pyParseInt key with
  | none => ConvOutcome.skip
  | some product_id =>
    match dictGet "Processor Number" specs.essentials with
    | none => ConvOutcome.skip
    | some model =>
      match dictGet "# of Cores" specs.performance with
      | none => ConvOutcome.skip
      | some cc_str =>
        match pyParseInt cc_str with
        | none => ConvOutcome.skip
        | some corecount =>
          match dictGet "Processor Base Frequency" specs.performance with
          | none => ConvOutcome.skip
          | some freq_str =>
            match pySplitSpace freq_str with
            | [] => ConvOutcome.crash
            | raw0 :: rawrest =>
              match pyParseFloat raw0 with
              | none => ConvOutcome.skip
              | some value =>
                match rawrest with
                | [] => ConvOutcome.crash
                | unit :: _ =>
                  ConvOutcome.ok (CPU.init model product_id "intel" corecount
                    (human_readable_to_hertz value unit))

/-- Source function `convert` (lines 40-99): process the source entries in iteration order,
skipping caught failures; `none` models an uncaught `IndexError` aborting
the script. -/
def convert (source : List (String × RawCPUEntry)) : Option (List CPU) :=
  source.foldr (fun p acc =>
    match acc with
    | none => none
    | some rest =>
      match convertOne p.1 p.2 with
      | ConvOutcome.ok c => some (c :: rest)
      | ConvOutcome.skip => some rest
      | ConvOutcome.crash => none) (some [])

/-- The `__main__` of `convert-divinity76s-database.py` (lines 102-109),
with the downloaded source as a parameter: `save_cpus(convert(source))` —
note: no sort. -/
def convert_main (source : List (String × RawCPUEntry)) :
    Option (List (String × SavedCPU)) :=
  (convert source).map save_cpus

/-! ### Score, round-trip and sorting claim theorems -/

/-- Claim C6.  A CPU's score is `((corecount/8.0) + (corespeed/5.30e9)) ×
100.0 / 2.0` and a GPU's score is `((vram/(10·1024³)) +
(corespeed/1.440e9)) × 100.0 / 2.0`, both computed at construction from the
specs alone (the other constructor arguments cannot change the score). -/
theorem score_formulas (m m' ven ven' codename : String) (pid pid' : ℤ)
    (cc vram : ℤ) (cs cs' : ℚ) :
    (CPU.init m pid ven cc cs).score =
        ((cc : ℚ) / 8.0 + cs / 5.30e9) * 100.0 / 2.0 ∧
      (GPU.init m ven vram cs' codename).score =
        ((vram : ℚ) / (10 * 1024 ^ 3) + cs' / 1.440e9) * 100.0 / 2.0 ∧
      (CPU.init m pid ven cc cs).score = (CPU.init m' pid' ven' cc cs).score ∧
      (GPU.init m ven vram cs' codename).score =
        (GPU.init m' ven' vram cs' m).score := by
  refine ⟨?_, ?_, rfl, rfl⟩
  · show ((cc : ℚ) / 8.0 + cs / (5.30 * 10 ^ 9)) * 100.0 / 2.0 =
      ((cc : ℚ) / 8.0 + cs / 5.30e9) * 100.0 / 2.0
    norm_num
  · show ((vram : ℚ) / (10.0 * 1024 ^ 3) + cs' / (1440.0 * 10 ^ 6)) * 100.0 / 2.0 =
      ((vram : ℚ) / (10 * 1024 ^ 3) + cs' / 1.440e9) * 100.0 / 2.0
    norm_num

lemma dictInsert_cons {α : Type} (k' : String) (v' : α)
    (rest : List (String × α)) (k : String) (v : α) :
    dictInsert ((k', v') :: rest) k v =
      if k' = k then (k', v) :: rest else (k', v') :: dictInsert rest k v := rfl

lemma dictInsert_not_mem {α : Type} :
    ∀ {d : List (String × α)} {k : String} {v : α},
      k ∉ d.map Prod.fst → dictInsert d k v = d ++ [(k, v)] := by
  intro d
  induction d with
  | nil => intro k v _; rfl
  | cons q rest ih =>
    intro k v h
    obtain ⟨k', v'⟩ := q
    rw [List.map_cons, List.mem_cons, not_or] at h
    rw [dictInsert_cons, if_neg (fun heq => h.1 heq.symm), ih h.2,
      List.cons_append]

/-- The dict comprehension of `save_cpus`/`save_gpus` on pairwise-distinct
keys disjoint from the accumulator is a plain append of the key-value
pairs. -/
lemma dict_fold_eq {β α : Type} (keyf : β → String) (valf : β → α) :
    ∀ (xs : List β) (d : List (String × α)),
      (∀ x ∈ xs, keyf x ∉ d.map Prod.fst) → (xs.map keyf).Nodup →
      xs.foldl (fun d x => dictInsert d (keyf x) (valf x)) d =
        d ++ xs.map (fun x => (keyf x, valf x)) := by
  intro xs
  induction xs with
  | nil => intro d _ _; simp
  | cons x xs ih =>
    intro d hdisj hnodup
    rw [List.foldl_cons, List.map_cons,
      dictInsert_not_mem (hdisj x (List.mem_cons_self _ _))]
    rw [List.map_cons, List.nodup_cons] at hnodup
    have hdisj2 : ∀ y ∈ xs, keyf y ∉ (d ++ [(keyf x, valf x)]).map Prod.fst := by
      intro y hy
      rw [List.map_append, List.mem_append, not_or]
      refine ⟨hdisj y (List.mem_cons_of_mem _ hy), ?_⟩
      intro hmem
      have : keyf y = keyf x := by simpa using hmem
      exact hnodup.1 (this ▸ List.mem_map_of_mem keyf hy)
    rw [ih (d ++ [(keyf x, valf x)]) hdisj2 hnodup.2, List.append_assoc,
      List.singleton_append]

lemma save_cpus_eq {cpus : List CPU} (h : (cpus.map (fun c => c.model)).Nodup) :
    save_cpus cpus = cpus.map (fun c => (c.model, savedOfCPU c)) := by
  have hfold := dict_fold_eq (fun c : CPU => c.model) savedOfCPU cpus []
    (by simp) h
  simpa [save_cpus] using hfold

lemma save_gpus_eq {gpus : List GPU} (h : (gpus.map (fun g => g.model)).Nodup) :
    save_gpus gpus = gpus.map (fun g => (g.model, savedOfGPU g)) := by
  have hfold := dict_fold_eq (fun g : GPU => g.model) savedOfGPU gpus []
    (by simp) h
  simpa [save_gpus] using hfold

/-- Claim C7.  On databases with pairwise-distinct model names, loading what
`save` wrote reconstructs every record from its spec fields through the
constructor, so each reconstructed score is the freshly computed one; the
`score` field stored in the file is ignored on load — arbitrarily tampering
with every stored score does not change the loaded records. -/
theorem database_round_trip (cpus : List CPU) (gpus : List GPU) :
    ((cpus.map (fun c => c.model)).Nodup →
        load_cpus (save_cpus cpus) =
          cpus.map (fun c => CPU.init c.model c.product_id c.vendor
            c.corecount c.corespeed)) ∧
      ((gpus.map (fun g => g.model)).Nodup →
        load_gpus (save_gpus gpus) =
          gpus.map (fun g => GPU.init g.model g.vendor g.vram g.corespeed
            g.codename)) ∧
      (∀ (raw : List (String × SavedCPU)) (f : ℚ → ℚ),
        load_cpus (raw.map (fun p => (p.1, { p.2 with score := f p.2.score }))) =
          load_cpus raw) ∧
      (∀ (raw : List (String × SavedGPU)) (f : ℚ → ℚ),
        load_gpus (raw.map (fun p => (p.1, { p.2 with score := f p.2.score }))) =
          load_gpus raw) ∧
      (∀ (raw : List (String × SavedCPU)), ∀ c ∈ load_cpus raw,
        c.score = ((c.corecount : ℚ) / 8.0 + c.corespeed / 5.30e9) * 100.0 / 2.0) := by
  refine ⟨?_, ?_, ?_, ?_, ?_⟩
  · intro h
    rw [save_cpus_eq h]
    unfold load_cpus
    rw [List.map_map]
    rfl
  · intro h
    rw [save_gpus_eq h]
    unfold load_gpus
    rw [List.map_map]
    rfl
  · intro raw f
    unfold load_cpus
    rw [List.map_map]
    rfl
  · intro raw f
    unfold load_gpus
    rw [List.map_map]
    rfl
  · intro raw c hc
    unfold load_cpus at hc
    obtain ⟨p, -, rfl⟩ := List.mem_map.1 hc
    show ((p.2.corecount : ℚ) / 8.0 + p.2.corespeed / (5.30 * 10 ^ 9)) * 100.0 / 2.0 =
      ((p.2.corecount : ℚ) / 8.0 + p.2.corespeed / 5.30e9) * 100.0 / 2.0
    norm_num

/-- Claim C7 witness: the CPU round trip evaluated on a concrete two-record
database with distinct models. -/
theorem database_round_trip_witness :
    (([CPU.init "a" 1 "intel" 8 (53 * 10 ^ 8),
        CPU.init "b" 2 "amd" 4 (2 * 10 ^ 9)].map (fun c => c.model)).Nodup) ∧
      load_cpus (save_cpus [CPU.init "a" 1 "intel" 8 (53 * 10 ^ 8),
          CPU.init "b" 2 "amd" 4 (2 * 10 ^ 9)]) =
        [CPU.init "a" 1 "intel" 8 (53 * 10 ^ 8),
          CPU.init "b" 2 "amd" 4 (2 * 10 ^ 9)].map
          (fun c => CPU.init c.model c.product_id c.vendor c.corecount
            c.corespeed) :=
  ⟨by decide,
    (database_round_trip [CPU.init "a" 1 "intel" 8 (53 * 10 ^ 8),
        CPU.init "b" 2 "amd" 4 (2 * 10 ^ 9)] []).1 (by decide)⟩

lemma dictInsert_keys_sublist {α : Type} :
    ∀ (d : List (String × α)) (k : String) (v : α),
      List.Sublist ((dictInsert d k v).map Prod.fst) (d.map Prod.fst ++ [k]) := by
  intro d
  induction d with
  | nil =>
    intro k v
    exact List.Sublist.refl _
  | cons q rest ih =>
    intro k v
    obtain ⟨k', v'⟩ := q
    rw [dictInsert_cons]
    by_cases hk : k' = k
    · rw [if_pos hk]
      subst hk
      simp only [List.map_cons, List.cons_append]
      exact (List.sublist_append_left _ _).cons₂ k'
    · rw [if_neg hk]
      simp only [List.map_cons, List.cons_append]
      exact (ih k v).cons₂ k'

lemma dict_fold_keys_sublist {β α : Type} (keyf : β → String) (valf : β → α) :
    ∀ (xs : List β) (d : List (String × α)),
      List.Sublist ((xs.foldl (fun d x => dictInsert d (keyf x) (valf x)) d).map
        Prod.fst) (d.map Prod.fst ++ xs.map keyf) := by
  intro xs
  induction xs with
  | nil =>
    intro d
    simp
  | cons x xs ih =>
    intro d
    rw [List.foldl_cons]
    refine (ih (dictInsert d (keyf x) (valf x))).trans ?_
    rw [List.map_cons]
    have h1 := (dictInsert_keys_sublist d (keyf x) (valf x)).append_right (xs.map keyf)
    rw [List.append_assoc, List.singleton_append] at h1
    exact h1

lemma sorted_string_mergeSort {β : Type} (modelf : β → String) (l : List β) :
    (l.mergeSort (fun x y => decide (modelf x ≤ modelf y))).Pairwise
      (fun x y => modelf x ≤ modelf y) := by
  have h := @List.sorted_mergeSort _ (fun x y => decide (modelf x ≤ modelf y))
    (fun a b c hab hbc => by
      simp only [decide_eq_true_eq] at *
      exact le_trans hab hbc)
    (fun a b => by
      simp only [Bool.or_eq_true, decide_eq_true_eq]
      exact le_total _ _) l
  exact h.imp (fun hb => by simpa using hb)

/-- Claim C8 (amended: the two update scripts sort; the convert script does
not).  `update-cpu-database.py` and `update-gpu-database.py` sort the
records by model name immediately before writing, so the JSON object each
writes lists its model-name keys in ascending order, whatever the scraper
returned and whatever the previous database contained. -/
theorem scripts_sort_before_save (parsed old_cpus : List CPU)
    (parsedNvidia parsedAmd parsedIntel old_gpus : List GPU) :
    ((update_cpu_main parsed old_cpus).map Prod.fst).Pairwise (fun x y => x ≤ y) ∧
      ((update_gpu_main parsedNvidia parsedAmd parsedIntel old_gpus).map
        Prod.fst).Pairwise (fun x y => x ≤ y) := by
  constructor
  · have hsorted := sorted_string_mergeSort (fun c : CPU => c.model)
      (parsed ++ sortCPUsByPid old_cpus)
    have hsub := dict_fold_keys_sublist (fun c : CPU => c.model) savedOfCPU
      (sortCPUsByModel (parsed ++ sortCPUsByPid old_cpus)) []
    rw [List.map_nil, List.nil_append] at hsub
    have hpair : ((sortCPUsByModel (parsed ++ sortCPUsByPid old_cpus)).map
        (fun c : CPU => c.model)).Pairwise (fun x y => x ≤ y) :=
      List.pairwise_map.2 hsorted
    exact hpair.sublist hsub
  · have hsorted := sorted_string_mergeSort (fun g : GPU => g.model)
      (parsedNvidia ++ parsedAmd ++ parsedIntel ++ sortGPUsByModel old_gpus)
    have hsub := dict_fold_keys_sublist (fun g : GPU => g.model) savedOfGPU
      (sortGPUsByModel (parsedNvidia ++ parsedAmd ++ parsedIntel ++
        sortGPUsByModel old_gpus)) []
    rw [List.map_nil, List.nil_append] at hsub
    have hpair : ((sortGPUsByModel (parsedNvidia ++ parsedAmd ++ parsedIntel ++
        sortGPUsByModel old_gpus)).map (fun g : GPU => g.model)).Pairwise
        (fun x y => x ≤ y) :=
      List.pairwise_map.2 hsorted
    exact hpair.sublist hsub

/-- A two-entry source database for the convert-script counterexample,
with well-formed fields throughout. -/
def cexEntry (m : String) : RawCPUEntry :=
  ⟨[("Processor Number", m)],
    [("# of Cores", "4"), ("Processor Base Frequency", "2 GHz")]⟩

/-- Claim C8 counterexample: `convert-divinity76s-database.py` persists the
database without sorting — on a source whose iteration order yields models
`"b"` then `"a"`, the saved JSON object lists its keys in that unsorted
order. -/
theorem convert_script_unsorted_cex :
    (convert_main [("2", cexEntry "b"), ("1", cexEntry "a")]).map
        (fun d => d.map Prod.fst) = some ["b", "a"] ∧
      ¬ (["b", "a"] : List String).Pairwise (fun x y => x ≤ y) := by
  constructor
  · decide
  · intro h
    have hba : ("b" : String) ≤ "a" := (List.pairwise_cons.1 h).1 "a" (by simp)
    rw [String.le_iff_toList_le] at hba
    exact absurd hba (by decide)

end Comphardware
